import Mathlib

/-!
Verification of the fiber-based incremental renderer in `src/index.js`
(richest variant: createElement / render / reconcileChildren / workLoop /
performUnitOfWork / commitRoot / commitWork / commitDeletion / updateDom /
useState).

JS values are embedded as follows: element/fiber `type` is `Kind`
(a host tag string, or a component function identified by reference, i.e.
by a numeric id, since JS `===` on functions is reference equality);
props are association lists `String × Val` (JS objects have unique keys,
iterated in insertion order by `Object.keys`); `null`/`undefined` become
`Option`; DOM handles are opaque `Nat` ids.
-/

namespace OwnReact

/-- The `type` of an element or fiber: a host tag (string, including
`TEXT_ELEMENT`) or a component function reference (JS compares functions
with `===`, i.e. by identity, modelled by a numeric id). -/
inductive Kind where
  | host (tag : String)
  | comp (f : Nat)
deriving DecidableEq, Repr

/-- A JS prop value: a primitive (string / number) or a function reference
(event handler), compared by `===` — value equality for primitives,
reference identity for functions. -/
inductive Val where
  | str (s : String)
  | num (n : Int)
  | fn (id : Nat)
deriving DecidableEq, Repr

/-- A props object, minus its `children` entry (children are carried
separately on `Element`). Association list in `Object.keys` order. -/
abbrev Props := List (String × Val)

/-- The `effectTag` values written by `reconcileChildren`. -/
inductive EffectTag where
  | placement
  | update
  | deletion
deriving DecidableEq, Repr

/-- A `ReactElement`: `{type, props}` with `props.children` split out. -/
inductive Element where
  | mk (type : Kind) (props : Props) (children : List Element)

def Element.type : Element → Kind
  | .mk t _ _ => t

def Element.props : Element → Props
  | .mk _ p _ => p

def Element.children : Element → List Element
  | .mk _ _ c => c

/-- A committed `FiberElement` subtree: `type`, `props`, `dom`
(non-null only for host fibers), `effectTag`, and its children
(the JS `child`/`sibling` chain, represented as the list it encodes). -/
inductive Fiber where
  | mk (type : Kind) (props : Props) (dom : Option Nat)
       (effectTag : EffectTag) (kids : List Fiber)

def Fiber.type : Fiber → Kind
  | .mk t _ _ _ _ => t

def Fiber.props : Fiber → Props
  | .mk _ p _ _ _ => p

def Fiber.dom : Fiber → Option Nat
  | .mk _ _ d _ _ => d

def Fiber.effectTag : Fiber → EffectTag
  | .mk _ _ _ tg _ => tg

def Fiber.kids : Fiber → List Fiber
  | .mk _ _ _ _ k => k

/-- The in-place `effectTag` write (to DELETION) performed on an old
fiber before it is pushed onto `deletions`. -/
def Fiber.withTag : Fiber → EffectTag → Fiber
  | .mk t p d _ k, tg => .mk t p d tg k

/-- The fiber produced for one index by `reconcileChildren`:
`{type, props, dom, alternate, effectTag}` (its children are built later,
when the scheduler reaches it). -/
structure NewFiber where
  type : Kind
  props : Props
  dom : Option Nat
  alternate : Option Fiber
  effectTag : EffectTag
  /-- In the source, `props.children` travels inside `props`
  (`newFiber.props = element.props`); children are split out here as on
  `Element`. -/
  childElems : List Element

/-- JS `const sameType = oldFiber && element && element.type === oldFiber.type`
at one index of the lockstep walk (`none` = the chain/list is exhausted,
i.e. `null`/`undefined` in the JS). -/
def sameType (oldFiber : Option Fiber) (element : Option Element) : Bool :=
  match oldFiber, element with
  | some o, some e => decide (e.type = o.type)
  | _, _ => false

/-- The `sameType` branch: new fiber reusing the `dom` of the old fiber,
with `alternate = oldFiber` and tag `UPDATE`. -/
def mkUpdateFiber (o : Fiber) (e : Element) : NewFiber :=
  { type := o.type, props := e.props, dom := o.dom
    alternate := some o, effectTag := .update
    childElems := e.children }

/-- The `element && !sameType` branch: fresh fiber with `dom = null`,
`alternate = null` and tag `PLACEMENT`. -/
def mkPlacementFiber (e : Element) : NewFiber :=
  { type := e.type, props := e.props, dom := none
    alternate := none, effectTag := .placement
    childElems := e.children }

/-- Source `reconcileChildren(wipFiber, elements)`: the lockstep index walk of
the old child chain (`wipFiber.alternate.child` and its `sibling` links,
given as a list) against the new element list. The loop runs
`while (index < elements.length || oldFiber != null)`; each iteration
emits at most one new fiber (when an element is present) and pushes the
old fiber, tagged `DELETION`, onto `deletions` when it is present and not
`sameType`. Returns (new child chain, deletions pushed, in push order). -/
def reconcileChildren : List Fiber → List Element → List NewFiber × List Fiber
  | olds, [] =>
    -- elements exhausted: every remaining iteration only takes the
    -- `oldFiber && !sameType` branch, deleting the rest of the old chain
    ([], olds.map (·.withTag .deletion))
  | [], e :: es =>
    let r := reconcileChildren [] es
    (mkPlacementFiber e :: r.1, r.2)
  | o :: olds, e :: es =>
    let r := reconcileChildren olds es
    if e.type = o.type then
      (mkUpdateFiber o e :: r.1, r.2)
    else
      (mkPlacementFiber e :: r.1, o.withTag .deletion :: r.2)

end OwnReact

namespace OwnReact

lemma reconcileChildren_nil_elements (olds : List Fiber) :
    reconcileChildren olds [] = ([], olds.map (·.withTag .deletion)) := by
  cases olds <;> rfl

lemma reconcileChildren_nil_olds (es : List Element) :
    reconcileChildren [] es = (es.map mkPlacementFiber, []) := by
  induction es with
  | nil => rfl
  | cons e es ih => simp [reconcileChildren, ih]

lemma reconcileChildren_length (olds : List Fiber) (es : List Element) :
    (reconcileChildren olds es).1.length = es.length := by
  induction olds generalizing es with
  | nil => simp [reconcileChildren_nil_olds]
  | cons o olds ih =>
    cases es with
    | nil => simp [reconcileChildren_nil_elements]
    | cons e es =>
      by_cases h : e.type = o.type <;> simp [reconcileChildren, h, ih]

/-- The new fiber emitted at index `i` is determined by the old fiber and
element at that index alone: `Update` reusing the old fiber when the types
agree, a fresh `Placement` fiber otherwise. -/
lemma reconcileChildren_news_get (olds : List Fiber) (es : List Element)
    (i : Nat) :
    (reconcileChildren olds es).1[i]? = es[i]?.map (fun e =>
      match olds[i]? with
      | some o => if e.type = o.type then mkUpdateFiber o e
                  else mkPlacementFiber e
      | none => mkPlacementFiber e) := by
  induction es generalizing olds i with
  | nil => simp [reconcileChildren_nil_elements]
  | cons e es ih =>
    cases olds with
    | nil =>
      cases i with
      | zero => simp [reconcileChildren]
      | succ i => simpa [reconcileChildren] using ih [] i
    | cons o olds =>
      by_cases h : e.type = o.type <;>
        cases i <;> simp [reconcileChildren, h, ih]

/-- Membership in the `deletions` list: exactly the old fibers whose index
fails `sameType`, re-tagged `DELETION`. -/
lemma mem_reconcileChildren_dels (olds : List Fiber) (es : List Element)
    (d : Fiber) :
    d ∈ (reconcileChildren olds es).2 ↔
      ∃ (i : Nat) (o : Fiber), olds[i]? = some o ∧
        sameType (some o) es[i]? = false ∧
        d = o.withTag .deletion := by
  induction olds generalizing es with
  | nil => simp [reconcileChildren_nil_olds]
  | cons o olds ih =>
    cases es with
    | nil =>
      simp only [reconcileChildren_nil_elements, List.mem_map]
      constructor
      · rintro ⟨o', ho', rfl⟩
        obtain ⟨i, hi⟩ := List.mem_iff_getElem?.mp ho'
        exact ⟨i, o', hi, by simp [sameType], rfl⟩
      · rintro ⟨i, o', hi, -, rfl⟩
        exact ⟨o', List.mem_iff_getElem?.mpr ⟨i, hi⟩, rfl⟩
    | cons e es =>
      by_cases h : e.type = o.type
      · simp only [reconcileChildren, h, if_pos, ih]
        constructor
        · rintro ⟨i, o', hi, hs, rfl⟩
          exact ⟨i + 1, o', by simpa using hi, by simpa using hs, rfl⟩
        · rintro ⟨i, o', hi, hs, rfl⟩
          cases i with
          | zero =>
            simp only [List.getElem?_cons_zero, Option.some_inj] at hi
            subst hi
            simp [sameType, h] at hs
          | succ i =>
            exact ⟨i, o', by simpa using hi, by simpa using hs, rfl⟩
      · simp only [reconcileChildren, h, if_neg, not_false_iff, List.mem_cons, ih]
        constructor
        · rintro (rfl | ⟨i, o', hi, hs, rfl⟩)
          · exact ⟨0, o, by simp, by simp [sameType, h], rfl⟩
          · exact ⟨i + 1, o', by simpa using hi, by simpa using hs, rfl⟩
        · rintro ⟨i, o', hi, hs, rfl⟩
          cases i with
          | zero =>
            simp only [List.getElem?_cons_zero, Option.some_inj] at hi
            subst hi
            exact Or.inl rfl
          | succ i =>
            exact Or.inr ⟨i, o', by simpa using hi, by simpa using hs, rfl⟩

/-- When the old child chain and the new element list have pointwise equal
types, every index takes the `sameType` branch: the result is exactly the
chain of `UPDATE` fibers, and nothing is pushed onto `deletions`. -/
lemma reconcileChildren_sameTypes (olds : List Fiber) (es : List Element)
    (h : olds.map Fiber.type = es.map Element.type) :
    reconcileChildren olds es =
      ((olds.zip es).map fun p => mkUpdateFiber p.1 p.2, []) := by
  induction olds generalizing es with
  | nil =>
    cases es with
    | nil => rfl
    | cons e es => simp at h
  | cons o olds ih =>
    cases es with
    | nil => simp at h
    | cons e es =>
      simp only [List.map_cons, List.cons.injEq] at h
      simp [reconcileChildren, h.1, ih es h.2]

/-- Concrete old fibers and elements for the `[A,B] → [B,A]` scenario:
two distinct host types. -/
def elemA : Element := .mk (.host "a") [] []

def elemB : Element := .mk (.host "b") [] []

def fiberA : Fiber := .mk (.host "a") [] (some 1) .update []

def fiberB : Fiber := .mk (.host "b") [] (some 2) .update []

/-- C1: `reconcileChildren` walks the old sibling chain and the new element
list in lockstep by index; `sameType` at an index holds iff both sides are
present with equal kind; `sameType` yields an `UPDATE` fiber reusing the
`dom` of the old fiber, with `alternate = oldFiber`; a present element not
`sameType` yields a fresh `PLACEMENT` fiber with `dom = null`,
`alternate = null`; a present old fiber that is not `sameType` is tagged
`DELETION` and appended to the deletions list; and reconciling `[A,B]` to
`[B,A]` with distinct types yields `DELETION` for both old fibers and
`PLACEMENT` for both new fibers, with no `UPDATE` reuse. -/
theorem reconcileChildren_positional_diff :
    (∀ (olds : List Fiber) (es : List Element),
      -- lockstep by index: one new fiber per new element
      (reconcileChildren olds es).1.length = es.length ∧
      -- sameType ↔ both present with equal kind
      (∀ i : Nat, sameType olds[i]? es[i]? = true ↔
        ∃ (o : Fiber) (e : Element), olds[i]? = some o ∧ es[i]? = some e ∧
          e.type = o.type) ∧
      -- sameType → Update reusing dom, alternate = oldFiber
      (∀ (i : Nat) (o : Fiber) (e : Element),
        olds[i]? = some o → es[i]? = some e → e.type = o.type →
        (reconcileChildren olds es).1[i]? =
          some { type := o.type, props := e.props, dom := o.dom,
                 alternate := some o, effectTag := .update,
                 childElems := e.children }) ∧
      -- element present, not sameType → fresh Placement fiber
      (∀ (i : Nat) (e : Element),
        es[i]? = some e → sameType olds[i]? es[i]? = false →
        (reconcileChildren olds es).1[i]? =
          some { type := e.type, props := e.props, dom := none,
                 alternate := none, effectTag := .placement,
                 childElems := e.children }) ∧
      -- old fiber present, not sameType → tagged Deletion, in deletions
      (∀ (i : Nat) (o : Fiber),
        olds[i]? = some o → sameType (some o) es[i]? = false →
        o.withTag .deletion ∈ (reconcileChildren olds es).2) ∧
      -- and nothing else is deleted
      (∀ d ∈ (reconcileChildren olds es).2, d.effectTag = .deletion ∧
        ∃ (i : Nat) (o : Fiber), olds[i]? = some o ∧
          sameType (some o) es[i]? = false ∧
          d = o.withTag .deletion)) ∧
    -- positional replace [A,B] → [B,A]: two Placements, two Deletions
    reconcileChildren [fiberA, fiberB] [elemB, elemA] =
      ([mkPlacementFiber elemB, mkPlacementFiber elemA],
       [fiberA.withTag .deletion, fiberB.withTag .deletion]) := by
  refine ⟨fun olds es => ⟨reconcileChildren_length olds es, ?_, ?_, ?_, ?_, ?_⟩, rfl⟩
  · intro i
    cases ho : olds[i]? <;> cases he : es[i]? <;>
      simp [sameType, eq_comm]
  · intro i o e ho he hty
    rw [reconcileChildren_news_get]
    simp [ho, he, hty, mkUpdateFiber]
  · intro i e he hs
    rw [reconcileChildren_news_get]
    cases ho : olds[i]? with
    | none => simp [he, mkPlacementFiber]
    | some o =>
      rw [ho, he] at hs
      simp only [sameType, decide_eq_false_iff_not] at hs
      simp [he, ho, hs, mkPlacementFiber]
  · intro i o ho hs
    exact (mem_reconcileChildren_dels olds es _).mpr ⟨i, o, ho, hs, rfl⟩
  · intro d hd
    obtain ⟨i, o, ho, hs, rfl⟩ := (mem_reconcileChildren_dels olds es d).mp hd
    exact ⟨by cases o <;> rfl, i, o, ho, hs, rfl⟩

/-- Witness for C1: the general clauses applied to the concrete
`[A,B] → [B,A]` input at index 0. -/
theorem reconcileChildren_positional_diff_witness :
    sameType [fiberA, fiberB][0]? [elemB, elemA][0]? = false ∧
    (reconcileChildren [fiberA, fiberB] [elemB, elemA]).1[0]? =
      some { type := elemB.type, props := elemB.props, dom := none,
             alternate := none, effectTag := .placement,
             childElems := elemB.children } ∧
    fiberA.withTag .deletion ∈
      (reconcileChildren [fiberA, fiberB] [elemB, elemA]).2 := by
  refine ⟨by decide, ?_, ?_⟩
  · exact (reconcileChildren_positional_diff.1 [fiberA, fiberB]
      [elemB, elemA]).2.2.2.1 0 elemB rfl (by decide)
  · exact (reconcileChildren_positional_diff.1 [fiberA, fiberB]
      [elemB, elemA]).2.2.2.2.1 0 fiberA rfl (by decide)

/-! ## Hook store (`useState`, `setState`) -/

/-- A hook cell `{state, queue}`: carried-over state and the pending
update functions pushed by the setter since the last render. -/
structure Hook (α : Type) where
  state : α
  queue : List (α → α)

/-- The state/cell computation inside `useState(initial)`: look up the
alternate fiber hook cell at the current `hookIndex`
(`wipFiber.alternate && wipFiber.alternate.hooks &&
wipFiber.alternate.hooks[hookIndex]`, so `altHooks = none` when the
alternate is null or carries no hook list), start from the old state (or
`initial`), then replay the old cell queue in order
(`actions.forEach(action => hook.state = action(hook.state))`).
The new cell starts with an empty queue. -/
def useStateCompute {α : Type} (altHooks : Option (List (Hook α)))
    (hookIndex : Nat) (initial : α) : Hook α :=
  let oldHook := match altHooks with
    | some hs => hs[hookIndex]?
    | none => none
  let base := match oldHook with
    | some oh => oh.state
    | none => initial
  let actions := match oldHook with
    | some oh => oh.queue
    | none => []
  { state := actions.foldl (fun s action => action s) base, queue := [] }

/-- The JS `hook.queue.push(action)` performed by the setter before it
schedules a new render. -/
def enqueueAction {α : Type} (h : Hook α) (action : α → α) : Hook α :=
  { h with queue := h.queue ++ [action] }

/-- The executing component fiber, as seen by `useState`: the hook list of
its alternate (if any) and the hooks pushed so far in this execution. -/
structure HookFiber (α : Type) where
  altHooks : Option (List (Hook α))
  hooks : List (Hook α)

/-- A `useState(initial)` invocation. The JS body starts with
`wipFiber.alternate`, which throws a `TypeError` when `wipFiber` is null
(no component execution has ever bound it); the throw is modelled as
`Except.error`. No hook-count comparison against the alternate is made
anywhere in the body: the new cell is pushed onto `wipFiber.hooks` and the
state is returned. -/
def useStateCall {α : Type} (wipFiber : Option (HookFiber α))
    (hookIndex : Nat) (initial : α) : Except String (HookFiber α × α) :=
  match wipFiber with
  | none => .error "TypeError: null wipFiber"
  | some f =>
    let hook := useStateCompute f.altHooks hookIndex initial
    .ok ({ f with hooks := f.hooks ++ [hook] }, hook.state)

/-- C4: the i-th `useState` call reuses the i-th hook cell of the
alternate when present — the returned state is the old cell state with
the queued update functions applied in enqueue order — and is
`initialValue` when no such cell exists; and the concrete scenario: one
`useState(0)`, two setter calls each enqueuing `c => c + 1`, two
render/commit cycles, committed value 2 after each cycle. -/
theorem useState_replays_queue :
    (∀ (α : Type) (altHooks : Option (List (Hook α))) (i : Nat)
       (initial : α),
      (useStateCompute altHooks i initial).state =
        match altHooks with
        | some hs =>
          match hs[i]? with
          | some oldHook =>
            oldHook.queue.foldl (fun s action => action s) oldHook.state
          | none => initial
        | none => initial) ∧
    (let inc : Nat → Nat := fun c => c + 1
     -- initial render creates the cell {state: 0, queue: []}
     let h0 := useStateCompute (α := Nat) none 0 0
     -- two sequential setter calls enqueue `inc` twice on that cell
     let h0' := enqueueAction (enqueueAction h0 inc) inc
     -- first re-render replays the queue, second re-render replays nothing
     let h1 := useStateCompute (some [h0']) 0 0
     let h2 := useStateCompute (some [h1]) 0 0
     h0.state = 0 ∧ h1.state = 2 ∧ h2.state = 2) := by
  constructor
  · intro α altHooks i initial
    cases altHooks with
    | none => rfl
    | some hs => cases h : hs[i]? <;> simp [useStateCompute, h]
  · exact ⟨rfl, rfl, rfl⟩

/-- Counterexample for C9: a hook-call-count mismatch (the alternate
committed zero hook cells, this execution performs a first call, i.e.
`hookIndex = 0` beyond the alternate count) raises no error at all — the
call silently succeeds with `initialValue`, contradicting the claimed
fail-fast behaviour. -/
theorem useState_mismatch_silently_succeeds :
    useStateCall (some { altHooks := some ([] : List (Hook Nat)),
                         hooks := [] }) 0 42 =
      .ok ({ altHooks := some [],
             hooks := [{ state := 42, queue := [] }] }, 42) := rfl

/-- C9 (amended): invoking `useState` with a null `wipFiber` throws a
`TypeError` from dereferencing null (a crash, not a descriptive usage
error), and whenever a `wipFiber` is bound the call never fails — in
particular a hook-count mismatch against the alternate is not detected
and is silently absorbed (the surplus call just receives the initial
value). -/
theorem useState_no_failfast :
    (∀ (α : Type) (i : Nat) (init : α),
      useStateCall (none : Option (HookFiber α)) i init =
        .error "TypeError: null wipFiber") ∧
    (∀ (α : Type) (f : HookFiber α) (i : Nat) (init : α),
      useStateCall (some f) i init =
        .ok ({ f with hooks :=
                 f.hooks ++ [useStateCompute f.altHooks i init] },
             (useStateCompute f.altHooks i init).state)) := by
  exact ⟨fun α i init => rfl, fun α f i init => rfl⟩

/-! ## Render requests and process-wide state (`render`, `setState`) -/

/-- A root fiber as allocated by `render` / `setState`: container handle,
props (with the children split out as on `Element`), and the alternate
chain to the previously committed root. -/
inductive RootFiber where
  | mk (dom : Nat) (props : Props) (children : List Element)
       (alternate : Option RootFiber)

def RootFiber.dom : RootFiber → Nat
  | .mk d _ _ _ => d

def RootFiber.props : RootFiber → Props
  | .mk _ p _ _ => p

def RootFiber.children : RootFiber → List Element
  | .mk _ _ c _ => c

def RootFiber.alternate : RootFiber → Option RootFiber
  | .mk _ _ _ a => a

/-- The process-wide render-request state touched by `render` and by a
setter: `nextUnitOfWork`, `wipRoot`, `currentRoot`, `deletions`
(all initially null). At request time the cursor points at the new root;
its subsequent movement is modelled separately by the scheduler machine. -/
structure Globals where
  nextUnitOfWork : Option RootFiber
  wipRoot : Option RootFiber
  currentRoot : Option RootFiber
  deletions : Option (List Fiber)

/-- Source `render(element, container)`: allocate a fresh `wipRoot` with
`props = {children: [element]}` and `alternate = currentRoot`, reset
`deletions` to `[]`, point `nextUnitOfWork` at the new root. Nothing is
read from the previous `wipRoot` / `nextUnitOfWork` / `deletions`. -/
def renderRequest (element : Element) (container : Nat) (g : Globals) :
    Globals :=
  let root := RootFiber.mk container [] [element] g.currentRoot
  { nextUnitOfWork := some root, wipRoot := some root,
    currentRoot := g.currentRoot, deletions := some [] }

/-- The setter closure returned by `useState`: push the update function
onto this cell queue, then allocate a fresh `wipRoot` from
`currentRoot.dom` / `currentRoot.props` with `alternate = currentRoot` —
`currentRoot` is dereferenced with no null guard, which throws a
`TypeError` when no generation has been committed yet. -/
def setState {α : Type} (hook : Hook α) (action : α → α) (g : Globals) :
    Hook α × Except String Globals :=
  (enqueueAction hook action,
   match g.currentRoot with
   | none => .error "TypeError: null currentRoot"
   | some cr =>
     let root := RootFiber.mk cr.dom cr.props cr.children (some cr)
     .ok { nextUnitOfWork := some root, wipRoot := some root,
           currentRoot := some cr, deletions := some [] })

/-- C7: both render requests unconditionally overwrite `wipRoot`,
`nextUnitOfWork` and `deletions`, whatever in-flight build they held; the
setter request is rooted at `currentRoot` (new root reuses its `dom` and
`props`, `alternate = currentRoot`); and a full re-reconciliation pass
tags unaffected (type-unchanged) child chains `UPDATE` instead of
skipping them. -/
theorem renderRequest_resets_globals :
    (∀ (element : Element) (container : Nat) (g : Globals),
      renderRequest element container g =
        { nextUnitOfWork :=
            some (RootFiber.mk container [] [element] g.currentRoot),
          wipRoot :=
            some (RootFiber.mk container [] [element] g.currentRoot),
          currentRoot := g.currentRoot, deletions := some [] }) ∧
    (∀ (α : Type) (hook : Hook α) (action : α → α) (g : Globals)
       (cr : RootFiber), g.currentRoot = some cr →
      (setState hook action g).2 =
        .ok { nextUnitOfWork :=
                some (RootFiber.mk cr.dom cr.props cr.children (some cr)),
              wipRoot :=
                some (RootFiber.mk cr.dom cr.props cr.children (some cr)),
              currentRoot := some cr, deletions := some [] }) ∧
    (∀ (olds : List Fiber) (es : List Element),
      olds.map Fiber.type = es.map Element.type →
      (reconcileChildren olds es).1.map NewFiber.effectTag =
        es.map (fun _ => EffectTag.update) ∧
      (reconcileChildren olds es).2 = []) := by
  refine ⟨fun element container g => rfl, ?_, ?_⟩
  · intro α hook action g cr hcr
    simp [setState, hcr]
  · intro olds es h
    rw [reconcileChildren_sameTypes olds es h]
    have hlen : olds.length = es.length := by
      have := congrArg List.length h
      simpa using this
    constructor
    · simp only [List.map_map]
      refine List.ext_getElem (by simp [hlen, Nat.min_eq_left hlen.le]) ?_
      intro i h1 h2
      simp [mkUpdateFiber]
    · rfl

/-- Witness for C7: the setter clause at a concrete committed root and
the reconcile clause on a length-1 unchanged chain. -/
theorem renderRequest_resets_globals_witness :
    (setState { state := (0 : Nat), queue := [] } (fun c => c + 1)
      { nextUnitOfWork := none, wipRoot := none,
        currentRoot := some (RootFiber.mk 7 [] [elemA] none),
        deletions := none }).2 =
      .ok { nextUnitOfWork :=
              some (RootFiber.mk 7 [] [elemA]
                (some (RootFiber.mk 7 [] [elemA] none))),
            wipRoot :=
              some (RootFiber.mk 7 [] [elemA]
                (some (RootFiber.mk 7 [] [elemA] none))),
            currentRoot := some (RootFiber.mk 7 [] [elemA] none),
            deletions := some [] } ∧
    (reconcileChildren [fiberA] [elemA]).1.map NewFiber.effectTag =
      [elemA].map (fun _ => EffectTag.update) := by
  constructor
  · exact renderRequest_resets_globals.2.1 Nat
      { state := 0, queue := [] } (fun c => c + 1) _
      (RootFiber.mk 7 [] [elemA] none) rfl
  · exact (renderRequest_resets_globals.2.2 [fiberA] [elemA] rfl).1

/-- C10: a setter invoked while `currentRoot` is still null (no commit has
happened yet) faults with the `TypeError` from the unguarded
`currentRoot.dom` / `currentRoot.props` reads instead of scheduling a
render; once a root has been committed the same call succeeds. -/
theorem setState_null_currentRoot_faults :
    (∀ (α : Type) (hook : Hook α) (action : α → α) (g : Globals),
      g.currentRoot = none →
      (setState hook action g).2 = .error "TypeError: null currentRoot") ∧
    (∀ (α : Type) (hook : Hook α) (action : α → α) (g : Globals)
       (cr : RootFiber), g.currentRoot = some cr →
      ∃ g2 : Globals, (setState hook action g).2 = .ok g2) := by
  constructor
  · intro α hook action g hg
    simp [setState, hg]
  · intro α hook action g cr hg
    refine ⟨{ nextUnitOfWork :=
                some (RootFiber.mk cr.dom cr.props cr.children (some cr)),
              wipRoot :=
                some (RootFiber.mk cr.dom cr.props cr.children (some cr)),
              currentRoot := some cr, deletions := some [] }, ?_⟩
    simp [setState, hg]

/-- Witness for C10: the fault at the pristine global state (before any
render), and success after a commit. -/
theorem setState_null_currentRoot_faults_witness :
    (setState { state := (0 : Nat), queue := [] } (fun c => c + 1)
      { nextUnitOfWork := none, wipRoot := none, currentRoot := none,
        deletions := none }).2 = .error "TypeError: null currentRoot" ∧
    ∃ g2 : Globals,
      (setState { state := (0 : Nat), queue := [] } (fun c => c + 1)
        { nextUnitOfWork := none, wipRoot := none,
          currentRoot := some (RootFiber.mk 7 [] [elemA] none),
          deletions := none }).2 = .ok g2 := by
  constructor
  · exact setState_null_currentRoot_faults.1 Nat
      { state := 0, queue := [] } (fun c => c + 1) _ rfl
  · exact setState_null_currentRoot_faults.2 Nat
      { state := 0, queue := [] } (fun c => c + 1) _
      (RootFiber.mk 7 [] [elemA] none) rfl

/-! ## Deletion commit (`commitDeletion`) -/

/-- A fiber in the child/sibling linked representation the source
actually uses: `dom` (non-null only on host fibers), first `child`, next
`sibling`; `null` stands for a null/undefined link. Props and types are
irrelevant to deletion and omitted. -/
inductive DFiber where
  | null
  | mk (dom : Option Nat) (child : DFiber) (sibling : DFiber)

def DFiber.sibling : DFiber → DFiber
  | .null => .null
  | .mk _ _ s => s

/-- All host-node ids reachable through a sibling chain and the child
links below it. -/
def DFiber.chainNodes : DFiber → List Nat
  | .null => []
  | .mk d c s => d.toList ++ c.chainNodes ++ s.chainNodes

/-- The host-node-bearing descendants (and self) of one fiber subtree:
its own `dom` plus everything below its child chain — its sibling is not
part of the subtree. At commit time every `PLACEMENT` appends a host node
under its nearest host ancestor, so these are exactly the host-tree nodes
living inside this fiber subtree. -/
def DFiber.subtreeNodes : DFiber → List Nat
  | .null => []
  | .mk d c _ => d.toList ++ c.chainNodes

/-- Source `commitDeletion(fiber, domParent)`: if the fiber carries a dom, call
`domParent.removeChild(fiber.dom)`; else recurse into `fiber.child`.
Returns the fiber whose dom gets removed; `none` models the crash that a
dom-less fiber with a null child would cause (reading `.dom` of null). -/
def commitDeletionTarget : DFiber → Option DFiber
  | .null => none
  | f@(.mk (some _) _ _) => some f
  | .mk none c _ => commitDeletionTarget c

/-- The host nodes that `commitDeletion` detaches from the host tree:
`removeChild` on the target dom removes the whole DOM subtree below it,
i.e. all host nodes of the target fiber subtree. -/
def commitDeletionRemoved (f : DFiber) : Option (List Nat) :=
  (commitDeletionTarget f).map DFiber.subtreeNodes

/-- The shape invariant of fibers this renderer builds: a dom-less fiber
is a component fiber, and `updateFunctionComponent` reconciles a component
against the singleton list `[fiber.type(fiber.props)]`, so a component
fiber has exactly one child (a child with a null sibling). -/
def DFiber.compOk : DFiber → Bool
  | .null => true
  | .mk d c s =>
    (match d, c with
     | some _, _ => true
     | none, .mk _ _ .null => true
     | none, _ => false)
    && c.compOk && s.compOk

/-- C2: for any deletable fiber subtree obeying the component
single-child shape, `commitDeletion` removes from the host tree exactly
the host-node-bearing descendants of that subtree — all of them, and
nothing else. -/
theorem commitDeletion_removes_exactly_subtree :
    ∀ f : DFiber, f.compOk = true → f ≠ .null →
      commitDeletionRemoved f = some f.subtreeNodes := by
  intro f
  induction f with
  | null => intro _ h; exact absurd rfl h
  | mk d c s ihc ihs =>
    intro hok _
    cases d with
    | some h => rfl
    | none =>
      simp only [DFiber.compOk, Bool.and_eq_true] at hok
      cases c with
      | null => simp at hok
      | mk d2 c2 s2 =>
        cases s2 with
        | mk _ _ _ => simp at hok
        | null =>
          have := ihc hok.1.2 (by intro h; cases h)
          simp only [commitDeletionRemoved, commitDeletionTarget] at this ⊢
          rw [this]
          simp [DFiber.subtreeNodes, DFiber.chainNodes]

/-- Witness for C2: a component fiber (no dom, single child) whose
host-bearing descendants are exactly `{1, 2}`; the deletion removes
exactly `[1, 2]`. -/
theorem commitDeletion_removes_exactly_subtree_witness :
    (DFiber.mk none (.mk (some 1) (.mk (some 2) .null .null) .null)
        .null).compOk = true ∧
    commitDeletionRemoved
        (DFiber.mk none (.mk (some 1) (.mk (some 2) .null .null) .null)
          .null) = some [1, 2] := by
  refine ⟨rfl, ?_⟩
  have := commitDeletion_removes_exactly_subtree
    (DFiber.mk none (.mk (some 1) (.mk (some 2) .null .null) .null) .null)
    rfl (by intro h; cases h)
  simpa [DFiber.subtreeNodes, DFiber.chainNodes] using this

/-! ## Property/listener diff (`updateDom`) -/

/-- JS `key.startsWith(on)`, expressed over the character list (equivalent:
a string starts with a two-character string iff its first two characters
are those two). -/
def isEvent (key : String) : Bool := key.data.take 2 == ['o', 'n']

def isProperty (key : String) : Bool :=
  decide (key ≠ "children") && !(isEvent key)

/-- JS `isNew(prev, next)(key)`: `prev[key] !== next[key]` (an absent key
reads as `undefined`, i.e. `none`). -/
def isNew (prev next : Props) (key : String) : Bool :=
  decide (List.lookup key prev ≠ List.lookup key next)

/-- JS `isGone(prev, next)(key)`: `!(key in next)`. -/
def isGone (_prev next : Props) (key : String) : Bool :=
  !((next.map Prod.fst).contains key)

/-- JS `name.toLowerCase().slice(2)`: the event type of an `on*` prop,
expressed over the character list. -/
def eventTypeOf (name : String) : String :=
  ⟨(name.data.map Char.toLower).drop 2⟩

/-- Where a DOM mutation lands: a concrete node handle, or the global
`document` object. -/
inductive Target where
  | node (handle : Nat)
  | document
deriving DecidableEq, Repr

/-- One host mutation emitted by `updateDom`:
`document.removeEventListener(eventType, handler)`, the
`dom[p] = empty-string` property clearing, `dom[p] = props[p]`, and
`document.addEventListener(eventType, handler)`. -/
inductive DomOp where
  | removeListener (target : Target) (eventType : String) (handler : Val)
  | clearProp (target : Target) (name : String)
  | setProp (target : Target) (name : String) (value : Val)
  | addListener (target : Target) (eventType : String) (handler : Val)
deriving DecidableEq, Repr

def DomOp.target : DomOp → Target
  | .removeListener t _ _ => t
  | .clearProp t _ => t
  | .setProp t _ _ => t
  | .addListener t _ _ => t

def DomOp.isListener : DomOp → Bool
  | .removeListener _ _ _ => true
  | .addListener _ _ _ => true
  | _ => false

/-- The property name an op reads or writes (`none` for listener ops,
which carry an event type instead). -/
def DomOp.propName : DomOp → Option String
  | .clearProp _ n => some n
  | .setProp _ n _ => some n
  | _ => none

/-- Source `updateDom(dom, props, oldProps)` as the ordered list of host
mutations it performs. The four passes, in source order, iterate
`Object.keys` of the respective props object (here: the entries of the
association list, whose keys are unique in a JS object):
remove old/changed event handlers — from `document`, not from `dom`;
clear gone properties on `dom`; set new/changed properties on `dom`;
add new/changed event handlers — again on `document`. -/
def updateDom (dom : Nat) (props oldProps : Props) : List DomOp :=
  (oldProps.filterMap fun kv =>
    if isEvent kv.1 &&
        (!((props.map Prod.fst).contains kv.1) || isNew oldProps props kv.1)
    then some (.removeListener .document (eventTypeOf kv.1) kv.2)
    else none)
  ++ (oldProps.filterMap fun kv =>
    if isProperty kv.1 && isGone oldProps props kv.1
    then some (.clearProp (.node dom) kv.1)
    else none)
  ++ (props.filterMap fun kv =>
    if isProperty kv.1 && isNew oldProps props kv.1
    then some (.setProp (.node dom) kv.1 kv.2)
    else none)
  ++ (props.filterMap fun kv =>
    if isEvent kv.1 && isNew oldProps props kv.1
    then some (.addListener .document (eventTypeOf kv.1) kv.2)
    else none)

/-- On an association list with unique keys (a JS object), an entry is in
the list iff `lookup` returns its value. -/
lemma mem_iff_lookup_of_nodup (l : Props) (hn : (l.map Prod.fst).Nodup)
    (name : String) (v : Val) :
    (name, v) ∈ l ↔ List.lookup name l = some v := by
  induction l with
  | nil => simp
  | cons kv t ih =>
    obtain ⟨k, w⟩ := kv
    simp only [List.map_cons, List.nodup_cons] at hn
    by_cases hk : name = k
    · subst hk
      simp only [List.lookup, beq_self_eq_true, List.mem_cons]
      constructor
      · rintro (h | h)
        · cases h; rfl
        · exact absurd (List.mem_map_of_mem Prod.fst h) hn.1
      · intro h
        cases h
        exact Or.inl rfl
    · have hbeq : (name == k) = false := beq_false_of_ne hk
      simp only [List.lookup, hbeq, List.mem_cons]
      rw [ih hn.2]
      constructor
      · rintro (h | h)
        · cases h; exact absurd rfl hk
        · exact h
      · exact Or.inr

/-- A key occurs among an association list keys iff `lookup` finds it. -/
lemma contains_keys_eq_lookup_isSome (l : Props) (name : String) :
    (l.map Prod.fst).contains name = (List.lookup name l).isSome := by
  induction l with
  | nil => rfl
  | cons kv t ih =>
    obtain ⟨k, w⟩ := kv
    simp only [List.map_cons, List.contains_cons, List.lookup]
    by_cases hk : name = k
    · subst hk
      simp
    · have hbeq : (name == k) = false := beq_false_of_ne hk
      rw [hbeq]
      simp only [Bool.false_or]
      exact ih

/-- Counterexample for C8: changing an `onClick` handler makes `updateDom`
detach the old listener and attach the new one on the global `document`
object, not on the fiber host node handle (here `5`) as the claim
states. -/
theorem updateDom_listeners_hit_document :
    updateDom 5 [("onClick", Val.fn 2)] [("onClick", Val.fn 1)] =
      [.removeListener .document "click" (.fn 1),
       .addListener .document "click" (.fn 2)] ∧
    ¬ (∀ op ∈ updateDom 5 [("onClick", Val.fn 2)] [("onClick", Val.fn 1)],
        op.isListener = true → op.target = .node 5) := by
  constructor
  · rfl
  · decide

/-- C8 (amended): commit diffs new props against the alternate props;
properties present in the old props and absent from the new are cleared
on the fiber host node, changed or added properties are set on it,
unchanged properties are untouched; listeners absent or changed in the
new props are detached and new or changed listeners attached — but every
listener operation targets the global `document` object, not the fiber
host node handle, while property operations do target the host node. -/
theorem updateDom_prop_diff :
    ∀ (dom : Nat) (props oldProps : Props),
    (props.map Prod.fst).Nodup → (oldProps.map Prod.fst).Nodup →
    -- old property absent from the new props: removed (cleared) on dom
    ((∀ (name : String) (v : Val), isProperty name = true →
      List.lookup name oldProps = some v → List.lookup name props = none →
      DomOp.clearProp (.node dom) name ∈ updateDom dom props oldProps) ∧
    -- changed or newly added property: set on dom
    (∀ (name : String) (v : Val), isProperty name = true →
      List.lookup name props = some v → List.lookup name oldProps ≠ some v →
      DomOp.setProp (.node dom) name v ∈ updateDom dom props oldProps) ∧
    -- unchanged property: no operation touches it
    (∀ (name : String) (v : Val), isProperty name = true →
      List.lookup name props = some v → List.lookup name oldProps = some v →
      ∀ op ∈ updateDom dom props oldProps, op.propName ≠ some name) ∧
    -- listener absent or changed in the new props: detached
    (∀ (name : String) (v : Val), isEvent name = true →
      List.lookup name oldProps = some v → List.lookup name props ≠ some v →
      DomOp.removeListener .document (eventTypeOf name) v ∈
        updateDom dom props oldProps) ∧
    -- new or changed listener: attached
    (∀ (name : String) (v : Val), isEvent name = true →
      List.lookup name props = some v → List.lookup name oldProps ≠ some v →
      DomOp.addListener .document (eventTypeOf name) v ∈
        updateDom dom props oldProps) ∧
    -- listener ops land on document, property ops on the fiber dom
    (∀ op ∈ updateDom dom props oldProps,
      (op.isListener = true → op.target = .document) ∧
      (op.isListener = false → op.target = .node dom))) := by
  intro dom props oldProps hnNew hnOld
  refine ⟨?_, ?_, ?_, ?_, ?_, ?_⟩
  · intro name v hprop holdv hnewv
    have hmem : (name, v) ∈ oldProps :=
      (mem_iff_lookup_of_nodup _ hnOld _ _).mpr holdv
    have hgone : isGone oldProps props name = true := by
      rw [isGone, contains_keys_eq_lookup_isSome, hnewv]
      rfl
    simp only [updateDom, List.mem_append, List.mem_filterMap]
    refine Or.inl (Or.inl (Or.inr ⟨(name, v), hmem, ?_⟩))
    show (if isProperty name && isGone oldProps props name
          then some (DomOp.clearProp (.node dom) name) else none) =
         some (DomOp.clearProp (.node dom) name)
    rw [hprop, hgone]
    rfl
  · intro name v hprop hnewv holdv
    have hmem : (name, v) ∈ props :=
      (mem_iff_lookup_of_nodup _ hnNew _ _).mpr hnewv
    have hnew : isNew oldProps props name = true := by
      rw [isNew, decide_eq_true_eq, hnewv]
      exact holdv
    simp only [updateDom, List.mem_append, List.mem_filterMap]
    refine Or.inl (Or.inr ⟨(name, v), hmem, ?_⟩)
    show (if isProperty name && isNew oldProps props name
          then some (DomOp.setProp (.node dom) name v) else none) =
         some (DomOp.setProp (.node dom) name v)
    rw [hprop, hnew]
    rfl
  · intro name v hprop hnewv holdv op hop hname
    simp only [updateDom, List.mem_append, List.mem_filterMap] at hop
    rcases hop with ((⟨kv, hkv, heq⟩ | ⟨kv, hkv, heq⟩) | ⟨kv, hkv, heq⟩) |
      ⟨kv, hkv, heq⟩
    · split at heq
      · cases heq; simp [DomOp.propName] at hname
      · cases heq
    · split at heq
      case isTrue hcond =>
        cases heq
        simp only [DomOp.propName, Option.some_inj] at hname
        subst hname
        rw [Bool.and_eq_true, isGone] at hcond
        have h2 := hcond.2
        rw [contains_keys_eq_lookup_isSome, hnewv] at h2
        simp at h2
      case isFalse => cases heq
    · split at heq
      case isTrue hcond =>
        cases heq
        simp only [DomOp.propName, Option.some_inj] at hname
        subst hname
        rw [Bool.and_eq_true, isNew, decide_eq_true_eq] at hcond
        exact hcond.2 (holdv.trans hnewv.symm)
      case isFalse => cases heq
    · split at heq
      · cases heq; simp [DomOp.propName] at hname
      · cases heq
  · intro name v hev holdv hnewv
    have hmem : (name, v) ∈ oldProps :=
      (mem_iff_lookup_of_nodup _ hnOld _ _).mpr holdv
    simp only [updateDom, List.mem_append, List.mem_filterMap]
    refine Or.inl (Or.inl (Or.inl ⟨(name, v), hmem, ?_⟩))
    show (if isEvent name &&
            (!((props.map Prod.fst).contains name) ||
              isNew oldProps props name)
          then some (DomOp.removeListener .document (eventTypeOf name) v)
          else none) =
         some (DomOp.removeListener .document (eventTypeOf name) v)
    by_cases hc : List.lookup name props = none
    · have hcont : ((props.map Prod.fst).contains name) = false := by
        rw [contains_keys_eq_lookup_isSome, hc]
        rfl
      rw [hev, hcont]
      rfl
    · have hnew : isNew oldProps props name = true := by
        rw [isNew, decide_eq_true_eq, holdv]
        intro h
        exact hnewv h.symm
      rw [hev, hnew]
      simp
  · intro name v hev hnewv holdv
    have hmem : (name, v) ∈ props :=
      (mem_iff_lookup_of_nodup _ hnNew _ _).mpr hnewv
    have hnew : isNew oldProps props name = true := by
      rw [isNew, decide_eq_true_eq, hnewv]
      exact holdv
    simp only [updateDom, List.mem_append, List.mem_filterMap]
    refine Or.inr ⟨(name, v), hmem, ?_⟩
    show (if isEvent name && isNew oldProps props name
          then some (DomOp.addListener .document (eventTypeOf name) v)
          else none) =
         some (DomOp.addListener .document (eventTypeOf name) v)
    rw [hev, hnew]
    rfl
  · intro op hop
    simp only [updateDom, List.mem_append, List.mem_filterMap] at hop
    rcases hop with ((⟨kv, hkv, heq⟩ | ⟨kv, hkv, heq⟩) | ⟨kv, hkv, heq⟩) |
      ⟨kv, hkv, heq⟩ <;> split at heq <;> cases heq <;>
      simp [DomOp.isListener, DomOp.target]

/-- Witness for C8 (amended): on a concrete diff, the gone `title`
property is cleared on the node handle and the changed `onClick` handler
is attached on `document`. -/
theorem updateDom_prop_diff_witness :
    DomOp.clearProp (.node 5) "title" ∈
      updateDom 5 [("id", Val.str "x"), ("onClick", Val.fn 2)]
        [("title", Val.str "t"), ("onClick", Val.fn 1)] ∧
    DomOp.addListener .document (eventTypeOf "onClick") (Val.fn 2) ∈
      updateDom 5 [("id", Val.str "x"), ("onClick", Val.fn 2)]
        [("title", Val.str "t"), ("onClick", Val.fn 1)] := by
  have h := updateDom_prop_diff 5
    [("id", Val.str "x"), ("onClick", Val.fn 2)]
    [("title", Val.str "t"), ("onClick", Val.fn 1)]
    (by decide) (by decide)
  exact ⟨h.1 "title" (Val.str "t") (by decide) (by decide) (by decide),
         h.2.2.2.2.1 "onClick" (Val.fn 2) (by decide) (by decide)
           (by decide)⟩


/-! ## Scheduler traversal (`performUnitOfWork`, `workLoop`) -/

/-- A work-in-progress fiber for the traversal claims, in the source
child/sibling linked representation: an id (the fiber identity), the
first `child` link and the next `sibling` link; `null` is a null link.
`performUnitOfWork` both builds a fiber children and then selects the
next unit; since children are fully linked before the cursor descends
into them, the cursor walk is the walk of this (final) linked tree. -/
inductive TFiber where
  | null
  | mk (id : Nat) (child : TFiber) (sibling : TFiber)
deriving DecidableEq, Repr

/-- Number of fibers in a sibling chain and everything below it. -/
def TFiber.size : TFiber → Nat
  | .null => 0
  | .mk _ c s => 1 + c.size + s.size

/-- Depth-first preorder ids of a sibling chain: the fiber, then its
child chain, then its sibling chain. -/
def TFiber.chainIds : TFiber → List Nat
  | .null => []
  | .mk id c s => id :: (c.chainIds ++ s.chainIds)

/-- The `while (nextFiber) { if (nextFiber.sibling) return
nextFiber.sibling; nextFiber = nextFiber.parent; }` walk: the stack holds
the sibling link of each ancestor, nearest first; pop until a non-null
sibling is found. `none` = the walk reached a null parent: traversal
complete. -/
def sibWalk : List TFiber → Option (TFiber × List TFiber)
  | [] => none
  | .null :: rest => sibWalk rest
  | .mk id c s :: rest => some (.mk id c s, rest)

/-- The `performUnitOfWork` next-unit selection for the fiber just processed:
prefer `fiber.child`; else run the ancestor walk starting from the fiber
own sibling. The cursor is the focused fiber plus the ancestor-sibling
stack (a zipper for the parent links the source follows). -/
def performNext : TFiber → List TFiber → Option (TFiber × List TFiber)
  | .null, _ => none
  | .mk _ c s, stack =>
    match c with
    | .mk id cc cs => some (.mk id cc cs, s :: stack)
    | .null => sibWalk (s :: stack)

/-- The ids visited by iterating `performNext` from a cursor (`fuel`
bounds the number of steps; any `fuel ≥` the remaining unit count is
exact). -/
def visitFrom : Nat → TFiber → List TFiber → List Nat
  | 0, _, _ => []
  | _ + 1, .null, _ => []
  | fuel + 1, .mk id c s, stack =>
    id :: (match performNext (.mk id c s) stack with
           | none => []
           | some (g, st) => visitFrom fuel g st)

def stackIds (stack : List TFiber) : List Nat :=
  (stack.map TFiber.chainIds).flatten

def stackSize (stack : List TFiber) : Nat :=
  (stack.map TFiber.size).sum

lemma TFiber.chainIds_length (f : TFiber) :
    f.chainIds.length = f.size := by
  induction f with
  | null => rfl
  | mk id c s ihc ihs =>
    simp only [TFiber.chainIds, TFiber.size, List.length_cons,
      List.length_append, ihc, ihs]
    omega

lemma TFiber.size_eq_zero (f : TFiber) : f.size = 0 ↔ f = .null := by
  cases f with
  | null => simp [TFiber.size]
  | mk id c s => simp [TFiber.size]

lemma stackSize_zero (stack : List TFiber) (h : stackSize stack = 0) :
    stackIds stack = [] := by
  induction stack with
  | nil => rfl
  | cons f rest ih =>
    simp only [stackSize, List.map_cons, List.sum_cons,
      Nat.add_eq_zero] at h
    have hf := (TFiber.size_eq_zero f).mp h.1
    subst hf
    simp only [stackIds, List.map_cons, List.flatten_cons, TFiber.chainIds,
      List.nil_append]
    exact ih h.2

lemma sibWalk_none (l : List TFiber) (h : sibWalk l = none) :
    stackIds l = [] ∧ stackSize l = 0 := by
  induction l with
  | nil => exact ⟨rfl, rfl⟩
  | cons f rest ih =>
    cases f with
    | null =>
      have := ih (by simpa [sibWalk] using h)
      simpa [stackIds, stackSize, TFiber.chainIds, TFiber.size] using this
    | mk id c s => simp [sibWalk] at h

lemma sibWalk_some (l : List TFiber) (g : TFiber) (st : List TFiber)
    (h : sibWalk l = some (g, st)) :
    g ≠ .null ∧ stackIds l = g.chainIds ++ stackIds st ∧
      stackSize l = g.size + stackSize st := by
  induction l with
  | nil => simp [sibWalk] at h
  | cons f rest ih =>
    cases f with
    | null =>
      have := ih (by simpa [sibWalk] using h)
      simpa [stackIds, stackSize, TFiber.chainIds, TFiber.size] using this
    | mk id c s =>
      simp only [sibWalk, Option.some_inj, Prod.mk.injEq] at h
      obtain ⟨rfl, rfl⟩ := h
      exact ⟨(by intro h2; cases h2), rfl, rfl⟩

lemma performNext_some (id : Nat) (c s : TFiber) (stack : List TFiber)
    (g : TFiber) (st : List TFiber)
    (h : performNext (.mk id c s) stack = some (g, st)) :
    g ≠ .null ∧
    g.chainIds ++ stackIds st = c.chainIds ++ s.chainIds ++ stackIds stack ∧
    g.size + stackSize st + 1 = (TFiber.mk id c s).size + stackSize stack := by
  cases c with
  | mk cid cc cs =>
    simp only [performNext, Option.some_inj, Prod.mk.injEq] at h
    obtain ⟨rfl, rfl⟩ := h
    refine ⟨(by intro h2; cases h2), ?_, ?_⟩
    · simp [stackIds]
    · simp only [TFiber.size, stackSize, List.map_cons, List.sum_cons]
      omega
  | null =>
    simp only [performNext] at h
    obtain ⟨hg, hids, hsz⟩ := sibWalk_some _ _ _ h
    refine ⟨hg, ?_, ?_⟩
    · rw [← hids]
      simp [stackIds, TFiber.chainIds]
    · have : stackSize (s :: stack) = s.size + stackSize stack := by
        simp [stackSize]
      rw [this] at hsz
      simp only [TFiber.size]
      omega

lemma performNext_none (id : Nat) (c s : TFiber) (stack : List TFiber)
    (h : performNext (.mk id c s) stack = none) :
    c = .null ∧ s.chainIds = [] ∧ stackIds stack = [] := by
  cases c with
  | mk cid cc cs => simp [performNext] at h
  | null =>
    simp only [performNext] at h
    obtain ⟨hids, hsz⟩ := sibWalk_none _ h
    simp only [stackIds, List.map_cons, List.flatten_cons,
      List.append_eq_nil] at hids
    exact ⟨rfl, hids.1, hids.2⟩

/-- Iterating the next-unit selection visits exactly the depth-first
preorder of the remaining work. -/
lemma visitFrom_spec :
    ∀ (fuel : Nat) (f : TFiber) (stack : List TFiber),
      f.size + stackSize stack ≤ fuel →
      (f = .null → stack = []) →
      visitFrom fuel f stack = f.chainIds ++ stackIds stack := by
  intro fuel
  induction fuel with
  | zero =>
    intro f stack hle hnull
    have hf : f.size = 0 := by omega
    have hs : stackSize stack = 0 := by omega
    rw [(TFiber.size_eq_zero f).mp hf] at hnull ⊢
    rw [stackSize_zero stack hs]
    simp [visitFrom, TFiber.chainIds, hnull rfl, stackIds]
  | succ fuel ih =>
    intro f stack hle hnull
    cases f with
    | null =>
      rw [hnull rfl]
      simp [visitFrom, TFiber.chainIds, stackIds]
    | mk id c s =>
      rw [visitFrom]
      cases hn : performNext (.mk id c s) stack with
      | none =>
        obtain ⟨hc, hs1, hs2⟩ := performNext_none id c s stack hn
        subst hc
        simp [TFiber.chainIds, hs1, hs2]
      | some p =>
        obtain ⟨g, st⟩ := p
        obtain ⟨hg, hids, hsz⟩ := performNext_some id c s stack g st hn
        have hle2 : g.size + stackSize st ≤ fuel := by
          simp only [TFiber.size] at hsz
          simp only [TFiber.size] at hle
          omega
        show id :: visitFrom fuel g st =
          (TFiber.mk id c s).chainIds ++ stackIds stack
        rw [ih g st hle2 (fun h2 => absurd h2 hg), hids]
        simp [TFiber.chainIds]

/-- The traversal cursor (`nextUnitOfWork`): `none` models null. A live
cursor never focuses a null fiber except the degenerate root-of-empty
case, where the stack is empty. -/
def curOk : Option (TFiber × List TFiber) → Prop
  | none => True
  | some (f, stack) => f = .null → stack = []

/-- The ids a cursor still has to visit. -/
def curVisits : Option (TFiber × List TFiber) → List Nat
  | none => []
  | some (f, stack) => f.chainIds ++ stackIds stack

/-- One `workLoop(deadline)` slice over the cursor:
`while (nextUnitOfWork && !shouldYield)` with a deadline that makes
`shouldYield` true after `budget` processed units (the JS checks the
deadline after each unit and always enters with `shouldYield = false`,
so a real slice has `budget ≥ 1`; `budget = 0` is a degenerate no-op
slice). Returns the ids processed and the surviving cursor. -/
def sliceRun :
    Nat → Option (TFiber × List TFiber) →
      List Nat × Option (TFiber × List TFiber)
  | _, none => ([], none)
  | 0, some cur => ([], some cur)
  | _ + 1, some (.null, _) => ([], none)
  | budget + 1, some (.mk id c s, stack) =>
    let r := sliceRun budget (performNext (.mk id c s) stack)
    (id :: r.1, r.2)

/-- A sequence of work-loop slices with the given budgets. -/
def drainSlices :
    List Nat → Option (TFiber × List TFiber) →
      List Nat × Option (TFiber × List TFiber)
  | [], cur => ([], cur)
  | b :: bs, cur =>
    let r := sliceRun b cur
    let r2 := drainSlices bs r.2
    (r.1 ++ r2.1, r2.2)

lemma sliceRun_split :
    ∀ (b : Nat) (cur : Option (TFiber × List TFiber)), curOk cur →
      (sliceRun b cur).1 ++ curVisits (sliceRun b cur).2 = curVisits cur ∧
      curOk (sliceRun b cur).2 ∧
      (sliceRun b cur).1.length = min b (curVisits cur).length := by
  intro b
  induction b with
  | zero =>
    intro cur hok
    cases cur with
    | none => exact ⟨rfl, trivial, rfl⟩
    | some p => exact ⟨rfl, hok, by simp [sliceRun]⟩
  | succ b ih =>
    intro cur hok
    cases cur with
    | none => exact ⟨rfl, trivial, rfl⟩
    | some p =>
      obtain ⟨f, stack⟩ := p
      cases f with
      | null =>
        have hst := hok rfl
        subst hst
        refine ⟨rfl, trivial, ?_⟩
        simp [sliceRun, curVisits, TFiber.chainIds, stackIds]
      | mk id c s =>
        cases hn : performNext (.mk id c s) stack with
        | none =>
          obtain ⟨hc, hs1, hs2⟩ := performNext_none id c s stack hn
          subst hc
          refine ⟨?_, ?_, ?_⟩
          · simp [sliceRun, hn, curVisits, TFiber.chainIds, hs1, hs2]
          · simp [sliceRun, hn, curOk]
          · simp [sliceRun, hn, curVisits, TFiber.chainIds, hs1, hs2]
        | some q =>
          obtain ⟨g, st⟩ := q
          obtain ⟨hg, hids, hsz⟩ := performNext_some id c s stack g st hn
          have hok2 : curOk (some (g, st)) := fun h2 => absurd h2 hg
          obtain ⟨e1, e2, e3⟩ := ih (some (g, st)) hok2
          have hlen : (TFiber.chainIds g ++ stackIds st).length =
              (TFiber.chainIds c ++ TFiber.chainIds s ++
                stackIds stack).length := by
            rw [hids]
          refine ⟨?_, ?_, ?_⟩
          · simp only [sliceRun, hn]
            rw [List.cons_append, e1]
            simp only [curVisits, TFiber.chainIds]
            rw [hids]
            simp
          · simp only [sliceRun, hn]
            exact e2
          · simp only [sliceRun, hn, List.length_cons, e3]
            simp only [curVisits, TFiber.chainIds] at hlen ⊢
            simp only [List.length_append, List.length_cons] at hlen ⊢
            omega

lemma drainSlices_split :
    ∀ (budgets : List Nat) (cur : Option (TFiber × List TFiber)),
      curOk cur →
      (drainSlices budgets cur).1 ++
          curVisits (drainSlices budgets cur).2 = curVisits cur ∧
      curOk (drainSlices budgets cur).2 ∧
      (drainSlices budgets cur).1.length =
        min budgets.sum (curVisits cur).length := by
  intro budgets
  induction budgets with
  | nil =>
    intro cur hok
    exact ⟨by simp [drainSlices], hok, by simp [drainSlices]⟩
  | cons b bs ih =>
    intro cur hok
    obtain ⟨e1, e2, e3⟩ := sliceRun_split b cur hok
    obtain ⟨f1, f2, f3⟩ := ih (sliceRun b cur).2 e2
    have h4 : (curVisits (sliceRun b cur).2).length =
        (curVisits cur).length - min b (curVisits cur).length := by
      have := congrArg List.length e1
      simp only [List.length_append] at this
      omega
    refine ⟨?_, ?_, ?_⟩
    · simp only [drainSlices]
      rw [List.append_assoc, f1, e1]
    · simp only [drainSlices]
      exact f2
    · simp only [drainSlices, List.length_append, List.sum_cons, e3, f3, h4]
      omega

/-- C3: starting from the work-in-progress root, iterating the next-unit
selection visits the fiber tree in depth-first preorder (prefer the
child, else the first ancestor sibling found by the parent walk, with a
null cursor on completion); across any sequence of time-slice budgets
the visited ids concatenate to an exact prefix of that preorder with the
remaining work as the exact suffix — no fiber twice, none skipped — the
number of processed units is `min(Σ budgets, N)`, and when the budget
expired after `k` units the fiber focused on resume is unit `k + 1` of
the preorder. -/
theorem workLoop_traversal_exact :
    ∀ (t : TFiber) (budgets : List Nat),
      (∀ fuel : Nat, t.size ≤ fuel → visitFrom fuel t [] = t.chainIds) ∧
      ((drainSlices budgets (some (t, []))).1 ++
          curVisits (drainSlices budgets (some (t, []))).2 = t.chainIds ∧
        (drainSlices budgets (some (t, []))).1.length =
          min budgets.sum t.size) ∧
      (∀ (g : TFiber) (st : List TFiber),
        (drainSlices budgets (some (t, []))).2 = some (g, st) →
          t.chainIds[(drainSlices budgets (some (t, []))).1.length]? =
            g.chainIds.head?) := by
  intro t budgets
  have hok : curOk (some (t, [])) := fun _ => rfl
  obtain ⟨e1, e2, e3⟩ := drainSlices_split budgets (some (t, [])) hok
  have hcv : curVisits (some (t, [])) = t.chainIds := by
    simp [curVisits, stackIds]
  rw [hcv] at e1 e3
  rw [TFiber.chainIds_length] at e3
  refine ⟨?_, ⟨e1, e3⟩, ?_⟩
  · intro fuel hf
    have := visitFrom_spec fuel t [] (by simpa [stackSize] using hf)
      (fun _ => rfl)
    simpa [stackIds] using this
  · intro g st hg
    rw [hg] at e1 e2
    have hidx : t.chainIds[(drainSlices budgets (some (t, []))).1.length]? =
        (curVisits (some (g, st)))[0]? := by
      rw [← e1, List.getElem?_append_right (le_refl _)]
      simp
    rw [hidx]
    cases g with
    | null =>
      have hst : st = [] := e2 rfl
      subst hst
      simp [curVisits, TFiber.chainIds, stackIds]
    | mk id c s =>
      simp [curVisits, TFiber.chainIds]

/-- Witness for C3, on the tree `1(2, 3)` (root 1 with children 2 and 3):
a full traversal visits `[1, 2, 3]`; with a budget that expires after
exactly 1 unit, the fiber focused on resume is unit 2. -/
theorem workLoop_traversal_exact_witness :
    visitFrom 3 (TFiber.mk 1 (.mk 2 .null (.mk 3 .null .null)) .null) []
      = [1, 2, 3] ∧
    (TFiber.mk 1 (.mk 2 .null (.mk 3 .null .null))
        .null).chainIds[(drainSlices [1]
          (some (TFiber.mk 1 (.mk 2 .null (.mk 3 .null .null)) .null,
            []))).1.length]? =
      (TFiber.mk 2 .null (.mk 3 .null .null)).chainIds.head? := by
  constructor
  · have := (workLoop_traversal_exact
      (TFiber.mk 1 (.mk 2 .null (.mk 3 .null .null)) .null) []).1 3
      (by decide)
    rw [this]
    rfl
  · exact (workLoop_traversal_exact
      (TFiber.mk 1 (.mk 2 .null (.mk 3 .null .null)) .null) [1]).2.2
      (TFiber.mk 2 .null (.mk 3 .null .null)) [.null] rfl


/-! ## Commit gating (`workLoop` + `commitRoot`) -/

/-- The renderer state a `workLoop` invocation touches: the traversal
cursor, the work-in-progress root, the committed root, and the
generation the host tree currently displays. Host mutations
(`appendChild` / `removeChild` / `updateDom` on live nodes) occur only
under `commitRoot`, so the host field is written only by the commit
step. -/
structure MachineState where
  nextUnitOfWork : Option (TFiber × List TFiber)
  wipRoot : Option TFiber
  currentRoot : Option TFiber
  host : Option TFiber
deriving DecidableEq

/-- Source `commitRoot()`: apply the whole finished tree to the host, promote
`currentRoot = wipRoot`, clear `wipRoot = null`. -/
def commitRootStep (st : MachineState) : MachineState :=
  { nextUnitOfWork := st.nextUnitOfWork, wipRoot := none,
    currentRoot := st.wipRoot, host := st.wipRoot }

/-- One `workLoop(deadline)` invocation: drain units while work remains
and the budget allows, then `if (!nextUnitOfWork && wipRoot)
commitRoot()`. -/
def workLoopSlice (budget : Nat) (st : MachineState) : MachineState :=
  let cur2 := (sliceRun budget st.nextUnitOfWork).2
  let st2 : MachineState := { st with nextUnitOfWork := cur2 }
  if cur2 = none ∧ st2.wipRoot ≠ none then commitRootStep st2 else st2

/-- Repeated `requestIdleCallback(workLoop)` invocations with the given
time budgets. -/
def runLoop : List Nat → MachineState → MachineState
  | [], st => st
  | b :: bs, st => runLoop bs (workLoopSlice b st)

/-- Once the work-in-progress root is gone (committed or never present),
later slices never commit again and leave wip/current/host untouched. -/
lemma runLoop_wip_none (bs : List Nat) :
    ∀ st : MachineState, st.wipRoot = none →
      (runLoop bs st).wipRoot = none ∧
      (runLoop bs st).host = st.host ∧
      (runLoop bs st).currentRoot = st.currentRoot := by
  induction bs with
  | nil => intro st h; exact ⟨h, rfl, rfl⟩
  | cons b bs ih =>
    intro st h
    have hs : workLoopSlice b st =
        { st with nextUnitOfWork := (sliceRun b st.nextUnitOfWork).2 } := by
      rw [workLoopSlice, if_neg]
      intro hcon
      exact hcon.2 h
    simp only [runLoop, hs]
    exact ih _ h

/-- C6: a slice commits exactly when the drained cursor is null and a
work-in-progress root exists, and the commit promotes that root to
`currentRoot`, displays it on the host, and clears `wipRoot`; the host
always equals the last fully committed generation; and any run of slices
that has not drained the work-in-progress tree (its root still present)
leaves the host and the committed root exactly as they were — the host
never shows a partially built generation. -/
theorem commit_only_when_drained :
    (∀ (budget : Nat) (st : MachineState),
      ((sliceRun budget st.nextUnitOfWork).2 = none ∧ st.wipRoot ≠ none →
        workLoopSlice budget st =
          { nextUnitOfWork := none, wipRoot := none,
            currentRoot := st.wipRoot, host := st.wipRoot }) ∧
      (¬ ((sliceRun budget st.nextUnitOfWork).2 = none ∧
            st.wipRoot ≠ none) →
        workLoopSlice budget st =
          { st with
              nextUnitOfWork := (sliceRun budget st.nextUnitOfWork).2 })) ∧
    (∀ (budgets : List Nat) (st : MachineState),
      st.host = st.currentRoot →
      (runLoop budgets st).host = (runLoop budgets st).currentRoot) ∧
    (∀ (budgets : List Nat) (st : MachineState),
      (runLoop budgets st).wipRoot ≠ none →
      (runLoop budgets st).host = st.host ∧
      (runLoop budgets st).currentRoot = st.currentRoot ∧
      (runLoop budgets st).wipRoot = st.wipRoot) := by
  refine ⟨?_, ?_, ?_⟩
  · intro budget st
    constructor
    · intro h
      rw [workLoopSlice, if_pos (by exact ⟨h.1, h.2⟩)]
      rw [commitRootStep, h.1]
    · intro h
      rw [workLoopSlice, if_neg h]
  · intro budgets
    induction budgets with
    | nil => intro st h; exact h
    | cons b bs ih =>
      intro st h
      simp only [runLoop]
      by_cases hc : (sliceRun b st.nextUnitOfWork).2 = none ∧
          st.wipRoot ≠ none
      · rw [workLoopSlice, if_pos hc]
        exact ih _ rfl
      · rw [workLoopSlice, if_neg hc]
        exact ih _ h
  · intro budgets
    induction budgets with
    | nil => intro st _; exact ⟨rfl, rfl, rfl⟩
    | cons b bs ih =>
      intro st hwip
      simp only [runLoop] at hwip ⊢
      by_cases hc : (sliceRun b st.nextUnitOfWork).2 = none ∧
          st.wipRoot ≠ none
      · rw [workLoopSlice, if_pos hc] at hwip ⊢
        have := (runLoop_wip_none bs
          (commitRootStep { st with
            nextUnitOfWork := (sliceRun b st.nextUnitOfWork).2 }) rfl).1
        exact absurd this hwip
      · rw [workLoopSlice, if_neg hc] at hwip ⊢
        exact ih _ hwip

/-- Witness for C6: on a 2-unit tree, a 1-unit slice leaves the wip tree
undrained and the host untouched; a 2-unit budget drains it and the
slice commits, promoting the tree to `currentRoot` and the host. -/
theorem commit_only_when_drained_witness :
    (runLoop [1]
      { nextUnitOfWork :=
          some (TFiber.mk 1 (.mk 2 .null .null) .null, []),
        wipRoot := some (TFiber.mk 1 (.mk 2 .null .null) .null),
        currentRoot := none, host := none }).host = none ∧
    workLoopSlice 2
      { nextUnitOfWork :=
          some (TFiber.mk 1 (.mk 2 .null .null) .null, []),
        wipRoot := some (TFiber.mk 1 (.mk 2 .null .null) .null),
        currentRoot := none, host := none } =
      { nextUnitOfWork := none, wipRoot := none,
        currentRoot := some (TFiber.mk 1 (.mk 2 .null .null) .null),
        host := some (TFiber.mk 1 (.mk 2 .null .null) .null) } := by
  constructor
  · exact (commit_only_when_drained.2.2 [1]
      { nextUnitOfWork :=
          some (TFiber.mk 1 (.mk 2 .null .null) .null, []),
        wipRoot := some (TFiber.mk 1 (.mk 2 .null .null) .null),
        currentRoot := none, host := none } (by decide)).1
  · exact (commit_only_when_drained.1 2
      { nextUnitOfWork :=
          some (TFiber.mk 1 (.mk 2 .null .null) .null, []),
        wipRoot := some (TFiber.mk 1 (.mk 2 .null .null) .null),
        currentRoot := none, host := none }).1 ⟨by decide, by decide⟩


/-! ## Whole-tree rebuild (`performUnitOfWork` over a full render pass) -/

/-- The child elements a fiber is reconciled against when the scheduler
processes it: `fiber.props.children` for a host fiber
(`updateHostComponent`), the singleton `[fiber.type(fiber.props)]` for a
component fiber (`updateFunctionComponent`). `env` maps a component
function reference and props to the element the function returns; a
fixed deterministic `env` models components whose hook state is
unchanged between passes. -/
def childElementsOf (env : Nat → Props → Element) (type : Kind)
    (props : Props) (childElems : List Element) : List Element :=
  match type with
  | .comp f => [env f props]
  | .host _ => childElems

/-- JS `wipFiber.alternate && wipFiber.alternate.child`: the old child chain
a fiber reconciles against. -/
def altKidsOf : Option Fiber → List Fiber
  | some a => a.kids
  | none => []

/-- Process one just-reconciled fiber, given the builder for its
reconciled children: reconcile its child elements against its alternate
child chain and assemble the subtree, collecting the deletions pushed at
this level and below. -/
def buildOneWith (env : Nat → Props → Element)
    (build : List NewFiber → Option (List Fiber × List Fiber))
    (nf : NewFiber) : Option (Fiber × List Fiber) :=
  let r := reconcileChildren (altKidsOf nf.alternate)
    (childElementsOf env nf.type nf.props nf.childElems)
  (build r.1).map fun p =>
    (Fiber.mk nf.type nf.props nf.dom nf.effectTag p.1, r.2 ++ p.2)

/-- Process a whole fiber chain left to right, concatenating deletions in
traversal order; `none` propagates fuel exhaustion. -/
def buildChain (g : NewFiber → Option (Fiber × List Fiber)) :
    List NewFiber → Option (List Fiber × List Fiber)
  | [] => some ([], [])
  | nf :: rest =>
    match g nf, buildChain g rest with
    | some (k, d), some (ks, ds) => some (k :: ks, d ++ ds)
    | _, _ => none

/-- Build the subtrees of a just-reconciled fiber chain, to depth `fuel`
(`none` = fuel exhausted) — what `performUnitOfWork` does as the cursor
reaches each fiber. Host-node creation for fresh fibers (`createDom`) is
omitted: it writes only the `dom` handle, which no tag or deletion
depends on. -/
def buildList (env : Nat → Props → Element) :
    Nat → List NewFiber → Option (List Fiber × List Fiber)
  | 0, news =>
    match news with
    | [] => some ([], [])
    | _ :: _ => none
  | fuel + 1, news =>
    buildChain (buildOneWith env (fun ns => buildList env fuel ns)) news

/-- One full render pass from the root: `wipRoot` carries
`props.children = [element]` and `alternate = currentRoot` (whose child
chain is `altKids`); reconcile and build, collecting all deletions. -/
def buildRoot (env : Nat → Props → Element) (fuel : Nat)
    (altKids : List Fiber) (children : List Element) :
    Option (List Fiber × List Fiber) :=
  let r := reconcileChildren altKids children
  (buildList env fuel r.1).map fun p => (p.1, r.2 ++ p.2)

/-- The fields `reconcileChildren` copies from the element into the new
fiber, whichever branch it takes. -/
def NFMatches (nf : NewFiber) (e : Element) : Prop :=
  nf.type = e.type ∧ nf.props = e.props ∧ nf.childElems = e.children

/-- Every fiber of a forest carries the `UPDATE` tag. -/
inductive AllUpdate : List Fiber → Prop where
  | nil : AllUpdate []
  | cons : ∀ (t : Kind) (p : Props) (d : Option Nat)
      (ks rest : List Fiber), AllUpdate ks → AllUpdate rest →
      AllUpdate (Fiber.mk t p d .update ks :: rest)

lemma buildList_nil (env : Nat → Props → Element) (fuel : Nat) :
    buildList env fuel [] = some ([], []) := by
  cases fuel <;> rfl

lemma buildList_succ (env : Nat → Props → Element) (fuel : Nat)
    (news : List NewFiber) :
    buildList env (fuel + 1) news =
      buildChain (buildOneWith env (buildList env fuel)) news := rfl

lemma buildChain_cons (g : NewFiber → Option (Fiber × List Fiber))
    (nf : NewFiber) (rest : List NewFiber) :
    buildChain g (nf :: rest) =
      match g nf, buildChain g rest with
      | some (k, d), some (ks, ds) => some (k :: ks, d ++ ds)
      | _, _ => none := rfl

lemma buildOneWith_eq (env : Nat → Props → Element)
    (build : List NewFiber → Option (List Fiber × List Fiber))
    (nf : NewFiber) :
    buildOneWith env build nf =
      (build (reconcileChildren (altKidsOf nf.alternate)
          (childElementsOf env nf.type nf.props nf.childElems)).1).map
        fun p =>
          (Fiber.mk nf.type nf.props nf.dom nf.effectTag p.1,
           (reconcileChildren (altKidsOf nf.alternate)
             (childElementsOf env nf.type nf.props nf.childElems)).2 ++
             p.2) := rfl

/-- The chain `reconcileChildren` produces always carries the fields of
its element list, position by position. -/
lemma reconcileChildren_matches (olds : List Fiber) (es : List Element) :
    List.Forall₂ NFMatches (reconcileChildren olds es).1 es := by
  induction es generalizing olds with
  | nil =>
    rw [reconcileChildren_nil_elements]
    exact List.Forall₂.nil
  | cons e es ih =>
    cases olds with
    | nil =>
      simp only [reconcileChildren]
      exact List.Forall₂.cons ⟨rfl, rfl, rfl⟩ (ih [])
    | cons o olds =>
      by_cases h : e.type = o.type
      · simp only [reconcileChildren, if_pos h]
        exact List.Forall₂.cons ⟨h.symm, rfl, rfl⟩ (ih olds)
      · simp only [reconcileChildren, if_neg h]
        exact List.Forall₂.cons ⟨rfl, rfl, rfl⟩ (ih olds)

/-- Rebuilding against the tree just built from the same elements (and
the same component environment) succeeds with no deletions anywhere and
only `UPDATE` tags. -/
lemma buildList_rebuild (env : Nat → Props → Element) :
    ∀ (fuel : Nat) (news : List NewFiber) (elems : List Element)
      (kids dels : List Fiber),
      List.Forall₂ NFMatches news elems →
      buildList env fuel news = some (kids, dels) →
      kids.map Fiber.type = elems.map Element.type ∧
      ∃ kids1 : List Fiber,
        buildList env fuel (reconcileChildren kids elems).1 =
          some (kids1, []) ∧ AllUpdate kids1 := by
  intro fuel
  induction fuel with
  | zero =>
    intro news elems kids dels hm hb
    cases news with
    | cons nf rest => exact absurd hb (by simp [buildList])
    | nil =>
      cases hm
      simp only [buildList, Option.some.injEq, Prod.mk.injEq] at hb
      obtain ⟨rfl, rfl⟩ := hb
      exact ⟨rfl, [], rfl, AllUpdate.nil⟩
  | succ fuel ihF =>
    intro news elems kids dels hm
    induction hm generalizing kids dels with
    | nil =>
      intro hb
      rw [buildList_nil] at hb
      simp only [Option.some.injEq, Prod.mk.injEq] at hb
      obtain ⟨rfl, rfl⟩ := hb
      exact ⟨rfl, [], by rw [reconcileChildren_nil_elements, buildList_nil],
        AllUpdate.nil⟩
    | cons hnf hrest ihRest =>
      rename_i nf e rest es
      intro hb
      rw [buildList_succ, buildChain_cons, buildOneWith_eq,
        ← buildList_succ] at hb
      cases h1 : buildList env fuel
          (reconcileChildren (altKidsOf nf.alternate)
            (childElementsOf env nf.type nf.props nf.childElems)).1 with
      | none => rw [h1] at hb; cases hb
      | some kp =>
        cases h2 : buildList env (fuel + 1) rest with
        | none =>
          rw [h1, h2] at hb
          simp only [Option.map_some'] at hb
          cases hb
        | some rp =>
          rw [h1, h2] at hb
          simp only [Option.map_some', Option.some.injEq,
            Prod.mk.injEq] at hb
          obtain ⟨rfl, rfl⟩ := hb
          obtain ⟨htyC, kk1, hkk1, hAllC⟩ := ihF _ _ _ _
            (reconcileChildren_matches (altKidsOf nf.alternate)
              (childElementsOf env nf.type nf.props nf.childElems)) h1
          obtain ⟨htyR, ks1, hks1, hAllR⟩ := ihRest _ _ h2
          obtain ⟨hty, hprops, hchild⟩ := hnf
          have hAllSame : (Fiber.mk nf.type nf.props nf.dom nf.effectTag
              kp.1 :: rp.1).map Fiber.type = (e :: es).map Element.type := by
            simp only [List.map_cons, Fiber.type, htyR, hty]
          constructor
          · exact hAllSame
          · have hcons := reconcileChildren_sameTypes _ _ hAllSame
            have htail := reconcileChildren_sameTypes rp.1 es htyR
            rw [hcons]
            simp only [List.zip_cons_cons, List.map_cons]
            rw [buildList_succ, buildChain_cons, buildOneWith_eq,
              ← buildList_succ]
            have haltKids : altKidsOf (mkUpdateFiber
                (Fiber.mk nf.type nf.props nf.dom nf.effectTag kp.1)
                e).alternate = kp.1 := rfl
            have hchildEls : childElementsOf env
                (mkUpdateFiber
                  (Fiber.mk nf.type nf.props nf.dom nf.effectTag kp.1)
                  e).type
                (mkUpdateFiber
                  (Fiber.mk nf.type nf.props nf.dom nf.effectTag kp.1)
                  e).props
                (mkUpdateFiber
                  (Fiber.mk nf.type nf.props nf.dom nf.effectTag kp.1)
                  e).childElems =
                childElementsOf env nf.type nf.props nf.childElems := by
              simp only [mkUpdateFiber, Fiber.type, Fiber.dom,
                childElementsOf, hprops, hchild]
            rw [haltKids, hchildEls, hkk1]
            rw [htail] at hks1
            rw [hks1]
            have hrec2 : (reconcileChildren kp.1
                (childElementsOf env nf.type nf.props
                  nf.childElems)).2 = [] := by
              rw [reconcileChildren_sameTypes _ _ htyC]
            refine ⟨Fiber.mk (mkUpdateFiber
              (Fiber.mk nf.type nf.props nf.dom nf.effectTag kp.1)
              e).type e.props nf.dom .update kk1 :: ks1, ?_, ?_⟩
            · simp only [Option.map_some', hrec2, mkUpdateFiber,
                Fiber.dom, Fiber.type]
              rfl
            · have : (mkUpdateFiber
                  (Fiber.mk nf.type nf.props nf.dom nf.effectTag kp.1)
                  e).type = nf.type := rfl
              rw [this]
              exact AllUpdate.cons _ _ _ _ _ hAllC hAllR

/-- C5: re-rendering an element tree that is unchanged since the last
committed generation, with unchanged state (the same deterministic
component environment), produces an effect set with no `PLACEMENT` and
no `DELETION`: the pass pushes nothing onto `deletions` and every fiber
of the new tree carries the `UPDATE` tag. -/
theorem rerender_unchanged_only_update :
    ∀ (env : Nat → Props → Element) (fuel : Nat) (elems : List Element)
      (kids0 dels0 : List Fiber),
      buildRoot env fuel [] elems = some (kids0, dels0) →
      ∃ kids1 : List Fiber,
        buildRoot env fuel kids0 elems = some (kids1, []) ∧
        AllUpdate kids1 := by
  intro env fuel elems kids0 dels0 h
  rw [buildRoot] at h
  cases hb : buildList env fuel (reconcileChildren [] elems).1 with
  | none => rw [hb] at h; cases h
  | some p =>
    rw [hb] at h
    simp only [Option.map_some', Option.some.injEq, Prod.mk.injEq] at h
    obtain ⟨h1, h2⟩ := h
    obtain ⟨q1, q2⟩ := p
    simp only at h1
    subst h1
    obtain ⟨hty, kids1, hk1, hAll⟩ := buildList_rebuild env fuel _ elems
      q1 q2 (reconcileChildren_matches [] elems) hb
    refine ⟨kids1, ?_, hAll⟩
    rw [buildRoot]
    have hrec : (reconcileChildren q1 elems).2 = [] := by
      rw [reconcileChildren_sameTypes _ _ hty]
    rw [hk1]
    simp only [Option.map_some', Option.some.injEq, Prod.mk.injEq, hrec]
    simp

/-- Witness for C5: a component over a host element; the second pass
yields no deletions and Update tags everywhere. -/
theorem rerender_unchanged_only_update_witness :
    buildRoot (fun _ _ => Element.mk (.host "div") [] []) 3 []
        [Element.mk (.comp 0) [] []] =
      some ([Fiber.mk (.comp 0) [] none .placement
              [Fiber.mk (.host "div") [] none .placement []]], []) ∧
    ∃ kids1 : List Fiber,
      buildRoot (fun _ _ => Element.mk (.host "div") [] []) 3
          [Fiber.mk (.comp 0) [] none .placement
            [Fiber.mk (.host "div") [] none .placement []]]
          [Element.mk (.comp 0) [] []] =
        some (kids1, []) ∧ AllUpdate kids1 := by
  constructor
  · rfl
  · exact rerender_unchanged_only_update
      (fun _ _ => Element.mk (.host "div") [] [])
      3 [Element.mk (.comp 0) [] []]
      [Fiber.mk (.comp 0) [] none .placement
        [Fiber.mk (.host "div") [] none .placement []]] [] rfl

end OwnReact
